import Mathlib

set_option maxHeartbeats 1000000

/- Shallow embedding of rover/compact.py: the Signature class, the merge
   operation (Compacter._merge), and the bubble-sort-with-merge compaction
   pass (Compacter._compact / Compacter.process).

   Conventions:
   - Python floats (sample rate, epoch times) are modelled as exact rationals.
   - A decoded obspy trace is a Block; its stats.endtime is stored as a field
     (obspy derives it from starttime, npts and sampling rate; the model keeps
     it as recorded data, which is a superset of the states obspy produces).
   - Sample values are exact integers; numpy dtype is a tag that is compared
     but whose casting behaviour is not modelled (claims never depend on it).
   - np.empty returns uninitialised memory: the model takes the arbitrary
     initial contents as an explicit parameter g, and theorems quantify
     over it.
   - Python list.remove (used by obspy Stream.remove) removes the first
     element that compares equal; modelled by List.erase with Block equality.
   - Fallible steps return Except; the loop takes fuel and returns none when
     the fuel runs out (termination is not at issue in the claims). -/

deriving instance DecidableEq for Except

/-- Configuration flags read by Compacter.__init__ from config.args. -/
structure Cfg where
  listOnly : Bool
  allowMutation : Bool
  allowMixedTypes : Bool
deriving DecidableEq, Repr

/-- One decoded data block (obspy Trace): stats fields plus the sample
buffer.  endT is stats.endtime as a stored value. -/
structure Block where
  net : String
  sta : String
  loc : String
  cha : String
  qua : String
  rate : ℚ
  start : ℚ
  endT : ℚ
  dtype : String
  data : List ℤ
deriving DecidableEq, Repr

def dfltBlock : Block :=
  { net := "", sta := "", loc := "", cha := "", qua := "", rate := 0,
    start := 0, endT := 0, dtype := "", data := [] }

instance : Inhabited Block := ⟨dfltBlock⟩

/-- The Signature class: metadata snapshot of one block. -/
structure Sig where
  net : String
  sta : String
  loc : String
  cha : String
  qua : String
  rate : ℚ
  start : ℚ
  endT : ℚ
  dtype : String
  nSamples : ℕ
deriving DecidableEq, Repr

/-- Signature.__init__ -/
def sigOf (b : Block) : Sig :=
  { net := b.net, sta := b.sta, loc := b.loc, cha := b.cha, qua := b.qua,
    rate := b.rate, start := b.start, endT := b.endT, dtype := b.dtype,
    nSamples := b.data.length }

/-- Signature.snclqr: the channel key. -/
def Sig.snclqr (s : Sig) : String × String × String × String × String × ℚ :=
  (s.net, s.sta, s.loc, s.cha, s.qua, s.rate)

/-- The channel key as a nested lexicographic product, for ordering. -/
abbrev KeyLex := String ×ₗ (String ×ₗ (String ×ₗ (String ×ₗ (String ×ₗ ℚ))))

def Sig.keyLex (s : Sig) : KeyLex :=
  toLex (s.net, toLex (s.sta, toLex (s.loc, toLex (s.cha, toLex (s.qua, s.rate)))))

/-- Signature.tuple as a lexicographically ordered value: Python compares
the 8-tuple (net, sta, loc, cha, qua, rate, start, end) lexicographically. -/
abbrev SigT := KeyLex ×ₗ (ℚ ×ₗ ℚ)

def Sig.tupleT (s : Sig) : SigT := toLex (s.keyLex, toLex (s.start, s.endT))

/-- Signature.__lt__ (tuple comparison). -/
def sigLt (a b : Sig) : Prop := a.tupleT < b.tupleT

/-- Non-strict signature order (total, since SigT is linearly ordered). -/
def sigLe (a b : Sig) : Prop := a.tupleT ≤ b.tupleT

instance (a b : Sig) : Decidable (sigLt a b) :=
  inferInstanceAs (Decidable (a.tupleT < b.tupleT))

instance (a b : Sig) : Decidable (sigLe a b) :=
  inferInstanceAs (Decidable (a.tupleT ≤ b.tupleT))

/-- Signature._before: b >= a. -/
abbrev timeBefore (a b : ℚ) : Prop := b ≥ a

/-- Signature._after: b <= a. -/
abbrev timeAfter (a b : ℚ) : Prop := b ≤ a

/-- Signature.mergeable: self is a, other is b, mirroring the two disjuncts
of the source. -/
def mergeable (a b : Sig) : Prop :=
  a.snclqr = b.snclqr ∧
    ((timeBefore b.start a.endT ∧ timeAfter b.endT a.start) ∨
     (timeBefore a.start b.endT ∧ timeAfter a.endT b.start))

instance (a b : Sig) : Decidable (mergeable a b) :=
  inferInstanceAs (Decidable (_ ∧ ((_ ∧ _) ∨ (_ ∧ _))))

/-- Python int(): truncation toward zero. -/
def pyInt (q : ℚ) : ℤ := if 0 ≤ q then ⌊q⌋ else ⌈q⌉

/-- Compacter._data_size: int(1.5 + secs * sample_rate). -/
def dataSize (secs rate : ℚ) : ℤ := pyInt (3 / 2 + secs * rate)

/-- Compacter._offset: int(0.5 + (start_time - zero) * sample_rate). -/
def offsetOf (zero startTime rate : ℚ) : ℤ := pyInt (1 / 2 + (startTime - zero) * rate)

/-- Compacter._locate. -/
def locate (zero : ℚ) (s : Sig) : ℤ × ℤ :=
  (offsetOf zero s.start s.rate, dataSize (s.endT - s.start) s.rate)

/-- Errors raised inside Compacter._merge (including numpy failures). -/
inductive MergeErr where
  | mixedTypes
  | badSize
  | negSize
  | broadcast
  | mutation
deriving DecidableEq, Repr

/-- Clamp one bound of a basic numpy slice x[a:b] to the array length
(negative indices count from the end, then both are clipped to [0, n]). -/
def npClampIdx (n : ℕ) (x : ℤ) : ℕ :=
  if x < 0 then (max ((n : ℤ) + x) 0).toNat else min x.toNat n

/-- numpy read slice x[a:b] (step 1). -/
def npSlice (buf : List ℤ) (a b : ℤ) : List ℤ :=
  let lo := npClampIdx buf.length a
  let hi := npClampIdx buf.length b
  (buf.drop lo).take (hi - lo)

/-- numpy slice assignment x[a:b] = src: exact-shape write, or a broadcast
fill when src has one element, otherwise a shape error. -/
def npSliceAssign (buf : List ℤ) (a b : ℤ) (src : List ℤ) :
    Except MergeErr (List ℤ) :=
  let lo := npClampIdx buf.length a
  let hi := npClampIdx buf.length b
  let sl := hi - lo
  if src.length = sl then
    Except.ok (buf.take lo ++ src ++ buf.drop (lo + sl))
  else if src.length = 1 then
    Except.ok (buf.take lo ++ List.replicate sl (src.headD 0) ++ buf.drop (lo + sl))
  else
    Except.error MergeErr.broadcast

/-- np.empty((n,), dtype): arbitrary initial contents g, error on negative
size. -/
def npEmpty (n : ℤ) (g : ℕ → ℤ) : Except MergeErr (List ℤ) :=
  if n < 0 then Except.error MergeErr.negSize
  else Except.ok ((List.range n.toNat).map g)

/-- The union start time _merge passes to _locate as zero. -/
def unionStart (data : List Block) (i : ℕ) : ℚ :=
  min (sigOf (data.getD i dfltBlock)).start (sigOf (data.getD (i - 1) dfltBlock)).start

/-- _locate of the upper (older) block relative to the union start. -/
def upperLoc (data : List Block) (i : ℕ) : ℤ × ℤ :=
  locate (unionStart data i) (sigOf (data.getD (i - 1) dfltBlock))

/-- _locate of the lower (newer) block relative to the union start. -/
def lowerLoc (data : List Block) (i : ℕ) : ℤ × ℤ :=
  locate (unionStart data i) (sigOf (data.getD i dfltBlock))

/-- The merged sample count n_samples computed by _merge. -/
def mergedCount (data : List Block) (i : ℕ) : ℤ :=
  dataSize (max (sigOf (data.getD i dfltBlock)).endT
      (sigOf (data.getD (i - 1) dfltBlock)).endT - unionStart data i)
    (sigOf (data.getD i dfltBlock)).rate

/-- The buffer-building part of Compacter._merge: allocate the union-sized
buffer and copy the old (upper) data first, then the newer (lower) data. -/
def mergeBuf (g : ℕ → ℤ) (data : List Block) (index : ℕ) :
    Except MergeErr (List ℤ) :=
  match npEmpty (mergedCount data index) g with
  | Except.error e => Except.error e
  | Except.ok buf0 =>
    match npSliceAssign buf0 (upperLoc data index).1
        ((upperLoc data index).1 + (upperLoc data index).2)
        (data.getD (index - 1) dfltBlock).data with
    | Except.error e => Except.error e
    | Except.ok buf1 =>
      npSliceAssign buf1 (lowerLoc data index).1
        ((lowerLoc data index).1 + (lowerLoc data index).2)
        (data.getD index dfltBlock).data

/-- The block that replaces the upper block after a successful merge: the
merged buffer, the lower block's dtype (np.empty is typed with it), the
union start time, and the end time obspy derives from the new npts and the
block's unchanged sampling rate. -/
def mergedBlock (data : List Block) (index : ℕ) (buf2 : List ℤ) : Block :=
  let upperB := data.getD (index - 1) dfltBlock
  { upperB with
      data := buf2, dtype := (sigOf (data.getD index dfltBlock)).dtype,
      start := unionStart data index,
      endT := unionStart data index + ((mergedCount data index : ℚ) - 1) / upperB.rate }

/-- Compacter._merge on blocks index-1 (upper, older) and index (lower,
newer): type check, size sanity checks, buffer build, mutation check, then
replace the upper block in place and remove the lower one (Python
list.remove removes the first element comparing equal). -/
def merge (cfg : Cfg) (g : ℕ → ℤ) (data : List Block) (index : ℕ) :
    Except MergeErr (List Block) :=
  let lowerB := data.getD index dfltBlock
  let upperB := data.getD (index - 1) dfltBlock
  let lower := sigOf lowerB
  let upper := sigOf upperB
  if lower.dtype ≠ upper.dtype ∧ cfg.allowMixedTypes = false then
    Except.error MergeErr.mixedTypes
  else if dataSize (upper.endT - upper.start) upper.rate ≠ (upperB.data.length : ℤ) then
    Except.error MergeErr.badSize
  else if dataSize (lower.endT - lower.start) lower.rate ≠ (lowerB.data.length : ℤ) then
    Except.error MergeErr.badSize
  else
    match mergeBuf g data index with
    | Except.error e => Except.error e
    | Except.ok buf2 =>
      if npSlice buf2 (upperLoc data index).1
          ((upperLoc data index).1 + (upperLoc data index).2) ≠ upperB.data ∧
          cfg.allowMutation = false then
        Except.error MergeErr.mutation
      else
        Except.ok ((data.set (index - 1) (mergedBlock data index buf2)).erase lowerB)

/-- Python list.insert(n, a): insert before position n (clamped to length). -/
def pyInsert (l : List Block) (n : ℕ) (a : Block) : List Block :=
  l.take n ++ a :: l.drop n

/-- Compacter._swap: remove the first element equal to data[index-1] and
re-insert it at position index. -/
def swapStep (data : List Block) (index : ℕ) : List Block :=
  let upperB := data.getD (index - 1) dfltBlock
  pyInsert (data.erase upperB) index upperB

/-- Result of one file's compaction pass (instrumented with swap and merge
counters; dup records the list-mode early return, wrote whether the file
replacement protocol would run). -/
structure FileOut where
  blocks : List Block
  mutated : Bool
  dup : Bool
  swaps : ℕ
  merges : ℕ
  wrote : Bool
deriving DecidableEq, Repr

/-- The while-loop of Compacter._compact (a modified bubble sort). -/
def compactLoop (cfg : Cfg) (g : ℕ → ℤ) :
    ℕ → List Block → ℕ → Bool → ℕ → ℕ → Option (Except MergeErr FileOut)
  | 0, _, _, _, _, _ => none
  | fuel + 1, data, i, mutated, swaps, merges =>
    if i < data.length then
      let lower := sigOf (data.getD i dfltBlock)
      let upper := sigOf (data.getD (i - 1) dfltBlock)
      if mergeable lower upper then
        if cfg.listOnly then
          some (Except.ok { blocks := data, mutated := mutated, dup := true,
                            swaps := swaps, merges := merges, wrote := false })
        else
          match merge cfg g data i with
          | Except.error e => some (Except.error e)
          | Except.ok data' =>
            compactLoop cfg g fuel data' (max 1 (i - 1)) true swaps (merges + 1)
      else if sigLt lower upper then
        compactLoop cfg g fuel (swapStep data i) (max 1 (i - 1)) true (swaps + 1) merges
      else
        compactLoop cfg g fuel data (i + 1) mutated swaps merges
    else
      some (Except.ok { blocks := data, mutated := mutated, dup := false,
                        swaps := swaps, merges := merges, wrote := false })

/-- Compacter._compact on one decoded file: run the loop from index 1, and
record whether the file replacement protocol runs (only outside list mode,
and only when the pass mutated the sequence). -/
def compactFile (cfg : Cfg) (g : ℕ → ℤ) (fuel : ℕ) (blocks : List Block) :
    Option (Except MergeErr FileOut) :=
  match compactLoop cfg g fuel blocks 1 false 0 0 with
  | none => none
  | some (Except.error e) => some (Except.error e)
  | some (Except.ok o) => some (Except.ok { o with wrote := !cfg.listOnly && o.mutated })

/-- Whether the run wrote the file back (invoked Compacter._replace). -/
def wroteOf (r : Option (Except MergeErr FileOut)) : Bool :=
  match r with
  | some (Except.ok o) => o.wrote
  | _ => false

/-- Outcome of Compacter.process on one path: normal completion, a
propagated per-file conflict, or the duplicates exception process raises at
its end when _found_duplicates was set while compacting this file. -/
inductive ProcResult where
  | ok
  | errored (e : MergeErr)
  | dupRaised
deriving DecidableEq, Repr

/-- Compacter.process for one file: _found_duplicates is reset on entry,
_compact runs, and process raises the duplicates exception at its own end
if this file set the flag. -/
def processFile (cfg : Cfg) (g : ℕ → ℤ) (fuel : ℕ) (blocks : List Block) :
    Option ProcResult :=
  match compactFile cfg g fuel blocks with
  | none => none
  | some (Except.error e) => some (ProcResult.errored e)
  | some (Except.ok o) => some (if o.dup then ProcResult.dupRaised else ProcResult.ok)

/-- Modelled from the spec: the scanner that drives Compacter.process over
the files of a run is not part of the sources (rover/scan.py is absent);
per spec section 7 the run catches each file's failure, records it, and
proceeds to the next file, so a run is the list of per-file outcomes in
order. -/
def runAll (cfg : Cfg) (g : ℕ → ℤ) (fuel : ℕ) (files : List (List Block)) :
    Option (List ProcResult) :=
  files.mapM (processFile cfg g fuel)

/-- Physical well-formedness of a decoded block: positive sample rate and a
span that does not end before it starts (true of every obspy trace with at
least one sample). -/
def WFb (b : Block) : Prop := 0 < b.rate ∧ b.start ≤ b.endT

def WFall (l : List Block) : Prop := ∀ b ∈ l, WFb b

instance (b : Block) : Decidable (WFb b) := inferInstanceAs (Decidable (_ ∧ _))

instance (l : List Block) : Decidable (WFall l) :=
  inferInstanceAs (Decidable (∀ b ∈ l, WFb b))

/-- The pair (j-1, j) is in its final state: ordered and not mergeable. -/
def goodPair (a b : Sig) : Prop := sigLe a b ∧ ¬ mergeable b a

/-- Loop invariant: every adjacent pair strictly below the cursor is in its
final state. -/
def SortedBelow (data : List Block) (i : ℕ) : Prop :=
  ∀ j, 0 < j → j < i → j < data.length →
    goodPair (sigOf (data.getD (j - 1) dfltBlock)) (sigOf (data.getD j dfltBlock))

/- ---------- concrete fixtures used by witnesses and counterexamples ---------- -/

def gZero : ℕ → ℤ := fun _ => 0

def cfgPlain : Cfg := { listOnly := false, allowMutation := false, allowMixedTypes := false }

def cfgList : Cfg := { listOnly := true, allowMutation := false, allowMixedTypes := false }

/-- A 1 Hz block with two samples covering seconds 0..1. -/
def blkA : Block :=
  { net := "N", sta := "A", loc := "", cha := "C", qua := "D", rate := 1,
    start := 0, endT := 1, dtype := "i4", data := [1, 2] }

/-- A later, disjoint block on a different station. -/
def blkB : Block :=
  { net := "N", sta := "B", loc := "", cha := "C", qua := "D", rate := 1,
    start := 5, endT := 6, dtype := "i4", data := [3, 4] }

/-- An exact duplicate of blkA with conflicting sample values. -/
def blkConf : Block := { blkA with data := [1, 99] }

/-- An exact duplicate of blkA carrying a different sample datatype. -/
def blkF : Block := { blkA with dtype := "f8" }

/-- A block overlapping blkA whose start is misaligned by half a sample
period; its stored end time still passes the size sanity check. -/
def blkHalf : Block := { blkA with start := 1 / 2, endT := 1, data := [7, 8] }

/-- A block whose stored span disagrees with its sample count. -/
def blkBadSize : Block := { blkA with endT := 5 }

/-- A block adjoining blkA on the same sample grid (samples at t = 1, 2). -/
def blkNext : Block := { blkA with start := 1, endT := 2, data := [3, 4] }

/-- Like blkNext but agreeing with blkA at the shared sample t = 1. -/
def blkNext2 : Block := { blkA with start := 1, endT := 2, data := [2, 4] }

/- ---------- basic facts about the signature order ---------- -/

theorem sigLe_refl (a : Sig) : sigLe a a := le_refl _

theorem sigLe_trans {a b c : Sig} (h1 : sigLe a b) (h2 : sigLe b c) : sigLe a c :=
  le_trans h1 h2

theorem sigLe_of_not_sigLt {a b : Sig} (h : ¬ sigLt a b) : sigLe b a := not_lt.mp h

theorem not_sigLt_of_sigLe {a b : Sig} (h : sigLe a b) : ¬ sigLt b a := not_lt.mpr h

theorem tupleT_eq_of_le_le {a b : Sig} (h1 : sigLe a b) (h2 : sigLe b a) :
    a.tupleT = b.tupleT := le_antisymm h1 h2

theorem keyLex_eq_iff {a b : Sig} : a.keyLex = b.keyLex ↔ a.snclqr = b.snclqr := by
  simp [Sig.keyLex, Sig.snclqr, toLex_inj, Prod.mk.injEq]

theorem tupleT_eq_parts {a b : Sig} (h : a.tupleT = b.tupleT) :
    a.snclqr = b.snclqr ∧ a.start = b.start ∧ a.endT = b.endT := by
  have h' := h
  simp only [Sig.tupleT, toLex_inj, Prod.mk.injEq] at h'
  exact ⟨keyLex_eq_iff.mp h'.1, h'.2.1, h'.2.2⟩

theorem keyLex_sandwich {a b c : Sig} (h1 : sigLe a c) (h2 : sigLe c b)
    (hk : a.keyLex = b.keyLex) : c.keyLex = a.keyLex := by
  unfold sigLe Sig.tupleT at h1 h2
  rcases (Prod.Lex.le_iff _ _).mp h1 with h | ⟨he, _⟩
  · rcases (Prod.Lex.le_iff _ _).mp h2 with h' | ⟨he', _⟩
    · exact absurd (hk ▸ lt_trans h h') (lt_irrefl _)
    · rw [he'] at h
      exact absurd (hk ▸ h) (lt_irrefl _)
  · exact he.symm

theorem startLe_of_sigLe_same_key {a c : Sig} (h : sigLe a c) (hk : a.keyLex = c.keyLex) :
    a.start ≤ c.start := by
  unfold sigLe Sig.tupleT at h
  rcases (Prod.Lex.le_iff _ _).mp h with h' | ⟨_, ht⟩
  · exact absurd (hk ▸ h') (lt_irrefl _)
  · rcases (Prod.Lex.le_iff _ _).mp ht with h'' | ⟨he, _⟩
    · exact le_of_lt h''
    · exact le_of_eq he

theorem snclqr_rate_eq {a b : Sig} (h : a.snclqr = b.snclqr) : a.rate = b.rate := by
  simp only [Sig.snclqr, Prod.mk.injEq] at h
  exact h.2.2.2.2.2

/-- The mergeable predicate in its simplified form: the two disjuncts of the
source are the same condition. -/
theorem mergeable_iff {a b : Sig} :
    mergeable a b ↔ a.snclqr = b.snclqr ∧ b.start ≤ a.endT ∧ a.start ≤ b.endT := by
  unfold mergeable timeBefore timeAfter
  constructor
  · rintro ⟨hk, ⟨h1, h2⟩ | ⟨h1, h2⟩⟩
    · exact ⟨hk, h1, h2⟩
    · exact ⟨hk, h2, h1⟩
  · rintro ⟨hk, h1, h2⟩
    exact ⟨hk, Or.inl ⟨h1, h2⟩⟩

theorem mergeable_symm {a b : Sig} (h : mergeable a b) : mergeable b a := by
  rw [mergeable_iff] at h ⊢
  exact ⟨h.1.symm, h.2.2, h.2.1⟩

theorem mergeable_self_of_wf {a : Sig} (h : a.start ≤ a.endT) : mergeable a a :=
  mergeable_iff.mpr ⟨rfl, h, h⟩

theorem mergeable_congr {a a' b b' : Sig} (ha : a.tupleT = a'.tupleT)
    (hsa : a.snclqr = a'.snclqr) (hb : b.tupleT = b'.tupleT) (hsb : b.snclqr = b'.snclqr) :
    mergeable a b ↔ mergeable a' b' := by
  obtain ⟨-, ha2, ha3⟩ := tupleT_eq_parts ha
  obtain ⟨-, hb2, hb3⟩ := tupleT_eq_parts hb
  rw [mergeable_iff, mergeable_iff, ha2, ha3, hb2, hb3, hsa, hsb]

/- ---------- the loop invariant machinery ---------- -/

theorem sortedBelow_chain {data : List Block} {i : ℕ} (hs : SortedBelow data i) :
    ∀ a b, a ≤ b → b < i → b < data.length →
      sigLe (sigOf (data.getD a dfltBlock)) (sigOf (data.getD b dfltBlock)) := by
  intro a b hab hbi hbl
  induction b with
  | zero =>
    cases Nat.le_zero.mp hab
    exact sigLe_refl _
  | succ n ih =>
    rcases Nat.lt_or_ge a (n + 1) with h | h
    · have hpair := hs (n + 1) (Nat.succ_pos n) hbi hbl
      have hn : sigLe (sigOf (data.getD a dfltBlock)) (sigOf (data.getD n dfltBlock)) :=
        ih (Nat.lt_succ_iff.mp h) (Nat.lt_of_succ_lt hbi) (Nat.lt_of_succ_lt hbl)
      simpa using sigLe_trans hn hpair.1
    · have : a = n + 1 := le_antisymm hab h
      subst this
      exact sigLe_refl _

theorem getD_mem {l : List Block} {j : ℕ} (h : j < l.length) : l.getD j dfltBlock ∈ l := by
  rw [List.getD_eq_getElem _ _ h]
  exact List.getElem_mem h

/-- No block strictly before position i-1 can equal the block at i-1 when the
prefix is sorted with no mergeable adjacencies and blocks are well formed. -/
theorem no_earlier_dup_swap {data : List Block} {i : ℕ} (hwf : WFall data)
    (hs : SortedBelow data i) (hi : i < data.length) :
    ∀ j, j < i - 1 → data.getD j dfltBlock ≠ data.getD (i - 1) dfltBlock := by
  intro j hj heq
  have hj1i : j + 1 ≤ i - 1 := hj
  have hi1l : i - 1 < data.length := lt_of_le_of_lt (Nat.sub_le i 1) hi
  have hi1i : i - 1 < i := by omega
  have hj1l : j + 1 < data.length := lt_of_le_of_lt hj1i hi1l
  have hpair := hs (j + 1) (Nat.succ_pos j) (lt_of_le_of_lt hj1i hi1i) hj1l
  simp only [Nat.add_sub_cancel] at hpair
  have hchain : sigLe (sigOf (data.getD (j + 1) dfltBlock)) (sigOf (data.getD (i - 1) dfltBlock)) :=
    sortedBelow_chain hs (j + 1) (i - 1) hj1i hi1i hi1l
  have hSeq : (sigOf (data.getD j dfltBlock)) = (sigOf (data.getD (i - 1) dfltBlock)) := by
    rw [heq]
  have h1 : sigLe (sigOf (data.getD j dfltBlock)) (sigOf (data.getD (j + 1) dfltBlock)) := hpair.1
  rw [hSeq] at h1
  have htup := tupleT_eq_of_le_le hchain h1
  obtain ⟨hks, hst, hen⟩ := tupleT_eq_parts htup
  have hwfj : WFb (data.getD (i - 1) dfltBlock) := hwf _ (getD_mem hi1l)
  apply hpair.2
  rw [hSeq]
  refine mergeable_iff.mpr ⟨hks, ?_, ?_⟩
  · rw [hen]
    exact hwfj.2
  · rw [hst]
    exact hwfj.2

/-- No block strictly before position i-1 can equal the (lower) block at i
when the pair (i-1, i) is mergeable. -/
theorem no_earlier_dup_merge {data : List Block} {i : ℕ} (hwf : WFall data)
    (hs : SortedBelow data i) (hi : i < data.length)
    (hm : mergeable (sigOf (data.getD i dfltBlock)) (sigOf (data.getD (i - 1) dfltBlock))) :
    ∀ j, j < i - 1 → data.getD j dfltBlock ≠ data.getD i dfltBlock := by
  intro j hj heq
  have hj1i : j + 1 ≤ i - 1 := hj
  have hi1l : i - 1 < data.length := lt_of_le_of_lt (Nat.sub_le i 1) hi
  have hi1i : i - 1 < i := by omega
  have hj1l : j + 1 < data.length := lt_of_le_of_lt hj1i hi1l
  have hpair := hs (j + 1) (Nat.succ_pos j) (lt_of_le_of_lt hj1i hi1i) hj1l
  simp only [Nat.add_sub_cancel] at hpair
  set sl := sigOf (data.getD i dfltBlock) with hsl
  set su := sigOf (data.getD (i - 1) dfltBlock) with hsu
  set sj1 := sigOf (data.getD (j + 1) dfltBlock) with hsj1
  have hSeq : (sigOf (data.getD j dfltBlock)) = sl := by rw [heq]
  have h1 : sigLe sl sj1 := by
    have := hpair.1
    rwa [hSeq] at this
  have hchain : sigLe sj1 su :=
    sortedBelow_chain hs (j + 1) (i - 1) hj1i hi1i hi1l
  obtain ⟨hklu, hsu_le, hsl_le⟩ := mergeable_iff.mp hm
  have hkey : sl.keyLex = su.keyLex := keyLex_eq_iff.mpr hklu
  have hkmid : sj1.keyLex = sl.keyLex := keyLex_sandwich h1 hchain hkey
  have hstart1 : sl.start ≤ sj1.start := startLe_of_sigLe_same_key h1 hkmid.symm
  have hstart2 : sj1.start ≤ su.start := startLe_of_sigLe_same_key hchain (hkmid.trans hkey)
  have hwfj1 : WFb (data.getD (j + 1) dfltBlock) := hwf _ (getD_mem hj1l)
  apply hpair.2
  rw [hSeq]
  refine mergeable_iff.mpr ⟨keyLex_eq_iff.mp hkmid, ?_, ?_⟩
  · exact le_trans hstart1 hwfj1.2
  · exact le_trans hstart2 hsu_le

/- ---------- list surgery lemmas ---------- -/

theorem decompTwo {data : List Block} {i : ℕ} (h0 : 0 < i) (hi : i < data.length) :
    data = data.take (i - 1) ++
      data.getD (i - 1) dfltBlock :: data.getD i dfltBlock :: data.drop (i + 1) := by
  have h1 : i - 1 < data.length := by omega
  conv_lhs => rw [← List.take_append_drop (i - 1) data]
  congr 1
  rw [List.drop_eq_getElem_cons h1, List.getD_eq_getElem _ _ h1]
  congr 1
  have h2 : i - 1 + 1 = i := by omega
  rw [h2, List.drop_eq_getElem_cons hi, List.getD_eq_getElem _ _ hi]

theorem take_len_pred {data : List Block} {i : ℕ} (hi : i < data.length) :
    (data.take (i - 1)).length = i - 1 := by
  rw [List.length_take]
  omega


theorem not_mem_take_of_ne {data : List Block} {i : ℕ} {x : Block}
    (hi : i < data.length)
    (hne : ∀ j, j < i - 1 → data.getD j dfltBlock ≠ x) :
    x ∉ data.take (i - 1) := by
  intro hmem
  obtain ⟨j, hj, hval⟩ := List.getElem_of_mem hmem
  have hji : j < i - 1 := by
    have := hj
    rw [take_len_pred hi] at this
    exact this
  apply hne j hji
  rw [List.getD_eq_getElem _ _ (show j < data.length by omega)]
  exact (List.getElem_take data).symm.trans hval

theorem getD_take_append {data rest : List Block} {i k : ℕ} (hk : k < i - 1)
    (hi : i - 1 ≤ data.length) :
    (data.take (i - 1) ++ rest).getD k dfltBlock = data.getD k dfltBlock := by
  rw [List.getD_append _ _ _ _ (by rw [List.length_take]; omega)]
  rw [List.getD_eq_getElem _ _ (by rw [List.length_take]; omega),
    List.getD_eq_getElem _ _ (by omega)]
  exact List.getElem_take data

/-- Compacter._swap really transposes the blocks at i-1 and i: under the loop
invariant the Python list.remove call cannot hit an earlier equal block. -/
theorem swapStep_shape {data : List Block} {i : ℕ} (hwf : WFall data)
    (hs : SortedBelow data i) (h0 : 0 < i) (hi : i < data.length) :
    swapStep data i =
      data.take (i - 1) ++
        data.getD i dfltBlock :: data.getD (i - 1) dfltBlock :: data.drop (i + 1) := by
  set u := data.getD (i - 1) dfltBlock with hu
  set lB := data.getD i dfltBlock with hlB
  set T := data.take (i - 1) with hT
  set R := data.drop (i + 1) with hR
  have hdec : data = T ++ u :: lB :: R := decompTwo h0 hi
  have hnm : u ∉ T := not_mem_take_of_ne hi (no_earlier_dup_swap hwf hs hi)
  have herase : data.erase u = T ++ lB :: R := by
    conv_lhs => rw [hdec]
    rw [List.erase_append_right _ hnm, List.erase_cons_head]
  show pyInsert (data.erase u) i u = T ++ lB :: u :: R
  rw [herase]
  unfold pyInsert
  have hTlen : T.length = i - 1 := take_len_pred hi
  have hieq : i = T.length + 1 := by omega
  rw [hieq, List.take_append, List.drop_append]
  simp

/-- The set-then-remove at the end of a successful merge leaves exactly the
prefix, the merged block, and the tail after the removed lower block. -/
theorem setErase_shape {data : List Block} {i : ℕ} (m : Block)
    (hwf : WFall data) (hs : SortedBelow data i) (h0 : 0 < i) (hi : i < data.length)
    (hm : mergeable (sigOf (data.getD i dfltBlock)) (sigOf (data.getD (i - 1) dfltBlock))) :
    (data.set (i - 1) m).erase (data.getD i dfltBlock) =
      data.take (i - 1) ++ m :: data.drop (i + 1) := by
  set u := data.getD (i - 1) dfltBlock with hu
  set lB := data.getD i dfltBlock with hlB
  set T := data.take (i - 1) with hT
  set R := data.drop (i + 1) with hR
  have hdec : data = T ++ u :: lB :: R := decompTwo h0 hi
  have hTlen : T.length = i - 1 := take_len_pred hi
  have hset : data.set (i - 1) m = T ++ m :: lB :: R := by
    conv_lhs => rw [hdec]
    rw [List.set_append_right _ _ (le_of_eq hTlen), hTlen, Nat.sub_self]
    rfl
  rw [hset]
  have hnmL : lB ∉ T := not_mem_take_of_ne hi (no_earlier_dup_merge hwf hs hi hm)
  rw [List.erase_append_right _ hnmL]
  by_cases hml : m = lB
  · rw [hml, List.erase_cons_head, ← hml]
  · rw [List.erase_cons_tail (by simpa using hml), List.erase_cons_head]

/-- A positive lower bound for _data_size on a nonnegative span. -/
theorem one_le_dataSize {secs rate : ℚ} (hs : 0 ≤ secs) (hr : 0 ≤ rate) :
    1 ≤ dataSize secs rate := by
  unfold dataSize pyInt
  have hq : (0 : ℚ) ≤ 3 / 2 + secs * rate := by
    have := mul_nonneg hs hr
    linarith
  rw [if_pos hq]
  have h1 : (1 : ℚ) ≤ 3 / 2 + secs * rate := by
    have := mul_nonneg hs hr
    linarith
  exact Int.le_floor.mpr (by exact_mod_cast h1)

/-- Inversion of a successful Compacter._merge: every check passed and the
result is the set-then-remove of the merged block. -/
theorem merge_ok_inv {cfg : Cfg} {g : ℕ → ℤ} {data : List Block} {i : ℕ}
    {out : List Block} (hok : merge cfg g data i = Except.ok out) :
    ∃ buf2, mergeBuf g data i = Except.ok buf2 ∧
      dataSize ((sigOf (data.getD (i - 1) dfltBlock)).endT -
          (sigOf (data.getD (i - 1) dfltBlock)).start)
          (sigOf (data.getD (i - 1) dfltBlock)).rate =
        ((data.getD (i - 1) dfltBlock).data.length : ℤ) ∧
      dataSize ((sigOf (data.getD i dfltBlock)).endT -
          (sigOf (data.getD i dfltBlock)).start)
          (sigOf (data.getD i dfltBlock)).rate =
        ((data.getD i dfltBlock).data.length : ℤ) ∧
      ((sigOf (data.getD i dfltBlock)).dtype = (sigOf (data.getD (i - 1) dfltBlock)).dtype ∨
        cfg.allowMixedTypes = true) ∧
      (npSlice buf2 (upperLoc data i).1 ((upperLoc data i).1 + (upperLoc data i).2) =
          (data.getD (i - 1) dfltBlock).data ∨ cfg.allowMutation = true) ∧
      out = (data.set (i - 1) (mergedBlock data i buf2)).erase (data.getD i dfltBlock) := by
  unfold merge at hok
  rcases hM : mergeBuf g data i with e | buf2 <;> rw [hM] at hok <;> simp only [] at hok
  · split_ifs at hok
  · split_ifs at hok with h1 h2 h3 h4
    refine ⟨buf2, rfl, not_not.mp h2, not_not.mp h3, ?_, ?_, ?_⟩
    · by_cases hb : cfg.allowMixedTypes = true
      · exact Or.inr hb
      · left
        by_contra hne
        exact h1 ⟨hne, by simpa using hb⟩
    · by_cases hb : cfg.allowMutation = true
      · exact Or.inr hb
      · left
        by_contra hne
        exact h4 ⟨hne, by simpa using hb⟩
    · injection hok with h
      exact h.symm

theorem one_le_mergedCount {data : List Block} {i : ℕ}
    (hwfL : WFb (data.getD i dfltBlock)) (hwfU : WFb (data.getD (i - 1) dfltBlock)) :
    (1 : ℤ) ≤ mergedCount data i := by
  unfold mergedCount unionStart
  apply one_le_dataSize _ (le_of_lt hwfL.1)
  simp only [sigOf]
  have b2 : min (data.getD i dfltBlock).start (data.getD (i - 1) dfltBlock).start ≤
      (data.getD i dfltBlock).start := min_le_left _ _
  have b3 : (data.getD i dfltBlock).endT ≤
      max (data.getD i dfltBlock).endT (data.getD (i - 1) dfltBlock).endT := le_max_left _ _
  have := hwfL.2
  linarith

theorem wf_mergedBlock {data : List Block} {i : ℕ} (buf2 : List ℤ)
    (hwfL : WFb (data.getD i dfltBlock)) (hwfU : WFb (data.getD (i - 1) dfltBlock)) :
    WFb (mergedBlock data i buf2) := by
  have h1 := one_le_mergedCount hwfL hwfU
  refine ⟨hwfU.1, ?_⟩
  show (mergedBlock data i buf2).start ≤ (mergedBlock data i buf2).endT
  unfold mergedBlock
  simp only []
  have h1q : (1 : ℚ) ≤ ((mergedCount data i : ℤ) : ℚ) := by exact_mod_cast h1
  have hdiv : (0 : ℚ) ≤ ((mergedCount data i : ℚ) - 1) / (data.getD (i - 1) dfltBlock).rate :=
    div_nonneg (by linarith) (le_of_lt hwfU.1)
  linarith

theorem merge_ok_shape {cfg : Cfg} {g : ℕ → ℤ} {data : List Block} {i : ℕ}
    {out : List Block} (hwf : WFall data) (hs : SortedBelow data i)
    (h0 : 0 < i) (hi : i < data.length)
    (hm : mergeable (sigOf (data.getD i dfltBlock)) (sigOf (data.getD (i - 1) dfltBlock)))
    (hok : merge cfg g data i = Except.ok out) :
    ∃ m : Block, WFb m ∧ out = data.take (i - 1) ++ m :: data.drop (i + 1) := by
  obtain ⟨buf2, hbuf, hszU, hszL, hdt, hmt, hout⟩ := merge_ok_inv hok
  refine ⟨mergedBlock data i buf2,
    wf_mergedBlock buf2 (hwf _ (getD_mem hi)) (hwf _ (getD_mem (by omega))), ?_⟩
  rw [hout]
  exact setErase_shape _ hwf hs h0 hi hm

theorem sortedBelow_shift {data new : List Block} {i : ℕ} (hi : i < data.length)
    (hnew : ∀ k, k < i - 1 → new.getD k dfltBlock = data.getD k dfltBlock)
    (hs : SortedBelow data i) : SortedBelow new (max 1 (i - 1)) := by
  intro j hj0 hji hjl
  have hji' : j < i - 1 := by
    rcases Nat.le_total (i - 1) 1 with h | h
    · rw [Nat.max_eq_left h] at hji
      omega
    · rw [Nat.max_eq_right h] at hji
      exact hji
  rw [hnew j hji', hnew (j - 1) (by omega)]
  exact hs j hj0 (by omega) (by omega)

theorem WFall_sub {l l' : List Block} (h : WFall l) (hsub : ∀ b ∈ l', b ∈ l) :
    WFall l' := fun b hb => h b (hsub b hb)

theorem wfall_swapShape {data : List Block} {i : ℕ} (hwf : WFall data)
    (h0 : 0 < i) (hi : i < data.length) :
    WFall (data.take (i - 1) ++
      data.getD i dfltBlock :: data.getD (i - 1) dfltBlock :: data.drop (i + 1)) := by
  apply WFall_sub hwf
  intro b hb
  rcases List.mem_append.mp hb with h | h
  · exact List.take_subset _ _ h
  · rcases List.mem_cons.mp h with rfl | h
    · exact getD_mem hi
    · rcases List.mem_cons.mp h with rfl | h
      · exact getD_mem (by omega)
      · exact List.drop_subset _ _ h

theorem wfall_mergeShape {data : List Block} {i : ℕ} {m : Block} (hwf : WFall data)
    (hm : WFb m) : WFall (data.take (i - 1) ++ m :: data.drop (i + 1)) := by
  intro b hb
  rcases List.mem_append.mp hb with h | h
  · exact hwf _ (List.take_subset _ _ h)
  · rcases List.mem_cons.mp h with rfl | h
    · exact hm
    · exact hwf _ (List.drop_subset _ _ h)

/-- Main loop invariant of Compacter._compact (non-list mode): a completed
run yields a sequence in which every adjacent pair is ordered and not
mergeable, and no duplicates short-circuit happened. -/
theorem compactLoop_invariant {cfg : Cfg} {g : ℕ → ℤ} (hlist : cfg.listOnly = false) :
    ∀ fuel data i mutated swaps merges out,
      0 < i → WFall data → SortedBelow data i →
      compactLoop cfg g fuel data i mutated swaps merges = some (Except.ok out) →
      out.dup = false ∧ SortedBelow out.blocks out.blocks.length := by
  intro fuel
  induction fuel with
  | zero =>
    intro data i mutated swaps merges out h0 hwf hs hrun
    exact absurd hrun (by simp [compactLoop])
  | succ fuel ih =>
    intro data i mutated swaps merges out h0 hwf hs hrun
    rw [compactLoop] at hrun
    by_cases hlen : i < data.length
    · rw [if_pos hlen] at hrun
      simp only [] at hrun
      by_cases hmg : mergeable (sigOf (data.getD i dfltBlock)) (sigOf (data.getD (i - 1) dfltBlock))
      · rw [if_pos hmg, hlist] at hrun
        simp only [Bool.false_eq_true, if_false] at hrun
        rcases hM : merge cfg g data i with e | data' <;> rw [hM] at hrun <;>
          simp only [] at hrun
        · exact absurd hrun (by simp)
        · obtain ⟨m, hwm, hshape⟩ := merge_ok_shape hwf hs h0 hlen hmg hM
          have hnew : ∀ k, k < i - 1 → data'.getD k dfltBlock = data.getD k dfltBlock := by
            intro k hk
            rw [hshape]
            exact getD_take_append hk (by omega)
          apply ih data' (max 1 (i - 1)) true swaps (merges + 1) out
            (lt_of_lt_of_le one_pos (le_max_left _ _))
            (by rw [hshape]; exact wfall_mergeShape hwf hwm)
            (sortedBelow_shift hlen hnew hs) hrun
      · rw [if_neg hmg] at hrun
        by_cases hlt : sigLt (sigOf (data.getD i dfltBlock)) (sigOf (data.getD (i - 1) dfltBlock))
        · rw [if_pos hlt] at hrun
          have hshape := swapStep_shape hwf hs h0 hlen
          have hnew : ∀ k, k < i - 1 →
              (swapStep data i).getD k dfltBlock = data.getD k dfltBlock := by
            intro k hk
            rw [hshape]
            exact getD_take_append hk (by omega)
          apply ih (swapStep data i) (max 1 (i - 1)) true (swaps + 1) merges out
            (lt_of_lt_of_le one_pos (le_max_left _ _))
            (by rw [hshape]; exact wfall_swapShape hwf h0 hlen)
            (sortedBelow_shift hlen hnew hs) hrun
        · rw [if_neg hlt] at hrun
          apply ih data (i + 1) mutated swaps merges out (by omega) hwf _ hrun
          intro j hj0 hji hjl
          rcases Nat.lt_or_ge j i with h | h
          · exact hs j hj0 h hjl
          · have hj : j = i := by omega
            subst hj
            exact ⟨sigLe_of_not_sigLt hlt, hmg⟩
    · rw [if_neg hlen] at hrun
      simp only [Option.some.injEq, Except.ok.injEq] at hrun
      rw [← hrun]
      refine ⟨rfl, ?_⟩
      intro j hj0 hji hjl
      exact hs j hj0 (by simp at hjl; omega) (by simpa using hjl)

/-- On a sequence whose adjacent pairs are all in final state, the loop only
advances: no swap, no merge, no mutation flag, same sequence. -/
theorem compactLoop_sorted_noop {cfg : Cfg} {g : ℕ → ℤ} :
    ∀ fuel data i mutated swaps merges,
      SortedBelow data data.length → 0 < i → 0 < fuel →
      data.length + 1 ≤ i + fuel →
      compactLoop cfg g fuel data i mutated swaps merges =
        some (Except.ok { blocks := data, mutated := mutated, dup := false,
                          swaps := swaps, merges := merges, wrote := false }) := by
  intro fuel
  induction fuel with
  | zero =>
    intro data i mutated swaps merges hsorted h0 hfpos hfuel
    omega
  | succ fuel ih =>
    intro data i mutated swaps merges hsorted h0 hfpos hfuel
    rw [compactLoop]
    by_cases hlen : i < data.length
    · rw [if_pos hlen]
      simp only []
      have hpair := hsorted i h0 hlen hlen
      rw [if_neg hpair.2, if_neg (not_sigLt_of_sigLe hpair.1)]
      exact ih data (i + 1) mutated swaps merges hsorted (by omega) (by omega) (by omega)
    · rw [if_neg hlen]

theorem sortedBelow_one (blocks : List Block) : SortedBelow blocks 1 := by
  intro j hj0 hj1 _
  omega

theorem compactFile_ok_inv {cfg : Cfg} {g : ℕ → ℤ} {fuel : ℕ} {blocks : List Block}
    {out : FileOut} (h : compactFile cfg g fuel blocks = some (Except.ok out)) :
    ∃ o, compactLoop cfg g fuel blocks 1 false 0 0 = some (Except.ok o) ∧
      out = { o with wrote := !cfg.listOnly && o.mutated } := by
  unfold compactFile at h
  rcases hL : compactLoop cfg g fuel blocks 1 false 0 0 with _ | r
  · rw [hL] at h
    exact absurd h (by simp)
  · rcases r with e | o
    · rw [hL] at h
      simp only [] at h
      exact absurd h (by simp)
    · rw [hL] at h
      simp only [Option.some.injEq, Except.ok.injEq] at h
      exact ⟨o, rfl, h.symm⟩

theorem wroteOf_of_error {cfg : Cfg} {g : ℕ → ℤ} {fuel : ℕ} {blocks : List Block}
    {e : MergeErr} (h : compactFile cfg g fuel blocks = some (Except.error e)) :
    wroteOf (compactFile cfg g fuel blocks) = false := by
  rw [h]
  rfl

/- ---------- the claims ---------- -/

/-- C7: for every pair of signatures a and b, mergeable a b holds iff a and b
have the same channel key and a.start ≤ b.end and b.start ≤ a.end; mergeable
is symmetric, and it fails whenever the channel keys differ, regardless of
the time fields. -/
theorem claim_c7 (a b : Sig) :
    (mergeable a b ↔ a.snclqr = b.snclqr ∧ a.start ≤ b.endT ∧ b.start ≤ a.endT) ∧
    (mergeable a b ↔ mergeable b a) ∧
    (a.snclqr ≠ b.snclqr → ¬ mergeable a b) := by
  refine ⟨?_, ⟨mergeable_symm, mergeable_symm⟩, ?_⟩
  · rw [mergeable_iff]
    constructor
    · rintro ⟨hk, h1, h2⟩
      exact ⟨hk, h2, h1⟩
    · rintro ⟨hk, h1, h2⟩
      exact ⟨hk, h2, h1⟩
  · intro hne hm
    exact hne (mergeable_iff.mp hm).1

/-- C1: if the compaction pass completes without error with list mode off,
then in the resulting sequence every adjacent pair is ordered by the
lexicographic signature order and no adjacent pair is mergeable. -/
theorem claim_c1 (cfg : Cfg) (g : ℕ → ℤ) (fuel : ℕ) (blocks : List Block)
    (out : FileOut) (hlist : cfg.listOnly = false) (hwf : WFall blocks)
    (hrun : compactFile cfg g fuel blocks = some (Except.ok out)) :
    ∀ j, 0 < j → j < out.blocks.length →
      sigLe (sigOf (out.blocks.getD (j - 1) dfltBlock)) (sigOf (out.blocks.getD j dfltBlock)) ∧
      ¬ mergeable (sigOf (out.blocks.getD j dfltBlock))
        (sigOf (out.blocks.getD (j - 1) dfltBlock)) := by
  obtain ⟨o, hL, hout⟩ := compactFile_ok_inv hrun
  have hinv := compactLoop_invariant hlist fuel blocks 1 false 0 0 o one_pos hwf
    (sortedBelow_one blocks) hL
  subst hout
  intro j hj0 hjl
  exact hinv.2 j hj0 hjl hjl

theorem claim_c1_witness :
    WFall [blkB, blkA] ∧
    (sigLe (sigOf ([blkA, blkB].getD 0 dfltBlock)) (sigOf ([blkA, blkB].getD 1 dfltBlock)) ∧
      ¬ mergeable (sigOf ([blkA, blkB].getD 1 dfltBlock))
        (sigOf ([blkA, blkB].getD 0 dfltBlock))) :=
  ⟨by decide,
    claim_c1 cfgPlain gZero 5 [blkB, blkA]
      { blocks := [blkA, blkB], mutated := true, dup := false, swaps := 1,
        merges := 0, wrote := true }
      rfl (by with_unfolding_all decide) (by with_unfolding_all decide) 1 one_pos (by with_unfolding_all decide)⟩

/-- C9: in list mode the file replacement protocol is never invoked, and the
moment the scan sees a mergeable adjacent pair it records duplicates and
returns, independently of the remaining fuel and of every block beyond the
pair. -/
theorem claim_c9 (cfg : Cfg) (g : ℕ → ℤ) (hlist : cfg.listOnly = true) :
    (∀ fuel blocks, wroteOf (compactFile cfg g fuel blocks) = false) ∧
    (∀ fuel data i mutated swaps merges,
      i < data.length →
      mergeable (sigOf (data.getD i dfltBlock)) (sigOf (data.getD (i - 1) dfltBlock)) →
      compactLoop cfg g (fuel + 1) data i mutated swaps merges =
        some (Except.ok { blocks := data, mutated := mutated, dup := true,
                          swaps := swaps, merges := merges, wrote := false })) := by
  constructor
  · intro fuel blocks
    cases hL : compactLoop cfg g fuel blocks 1 false 0 0 with
    | none => simp [compactFile, wroteOf, hL]
    | some r =>
      cases r with
      | error e => simp [compactFile, wroteOf, hL]
      | ok o => simp [compactFile, wroteOf, hL, hlist]
  · intro fuel data i mutated swaps merges hlen hm
    rw [compactLoop, if_pos hlen]
    simp only []
    rw [if_pos hm, hlist]
    simp

theorem claim_c9_witness :
    compactLoop cfgList gZero 1 [blkA, blkConf] 1 false 0 0 =
      some (Except.ok { blocks := [blkA, blkConf], mutated := false, dup := true,
                        swaps := 0, merges := 0, wrote := false }) :=
  (claim_c9 cfgList gZero rfl).2 0 [blkA, blkConf] 1 false 0 0 (by with_unfolding_all decide) (by with_unfolding_all decide)

/-- C8: running the compaction a second time on the output of a successful
non-list pass performs zero swaps and zero merges, returns the sequence
unchanged, and reports the file as not mutated (so nothing is written). -/
theorem claim_c8 (cfg : Cfg) (g g2 : ℕ → ℤ) (fuel fuel2 : ℕ) (blocks : List Block)
    (out : FileOut) (hlist : cfg.listOnly = false) (hwf : WFall blocks)
    (hrun : compactFile cfg g fuel blocks = some (Except.ok out))
    (hfuel : out.blocks.length + 1 ≤ fuel2) :
    compactFile cfg g2 fuel2 out.blocks =
      some (Except.ok { blocks := out.blocks, mutated := false, dup := false,
                        swaps := 0, merges := 0, wrote := false }) := by
  obtain ⟨o, hL, hout⟩ := compactFile_ok_inv hrun
  have hinv := compactLoop_invariant hlist fuel blocks 1 false 0 0 o one_pos hwf
    (sortedBelow_one blocks) hL
  have hob : out.blocks = o.blocks := by rw [hout]
  rw [hob] at hfuel ⊢
  unfold compactFile
  rw [compactLoop_sorted_noop fuel2 o.blocks 1 false 0 0 hinv.2 one_pos (by omega) (by omega)]
  simp

theorem claim_c8_witness :
    compactFile cfgPlain gZero 5 [blkA, blkB] =
      some (Except.ok { blocks := [blkA, blkB], mutated := false, dup := false,
                        swaps := 0, merges := 0, wrote := false }) :=
  claim_c8 cfgPlain gZero gZero 5 5 [blkB, blkA]
    { blocks := [blkA, blkB], mutated := true, dup := false, swaps := 1,
      merges := 0, wrote := true }
    rfl (by with_unfolding_all decide) (by with_unfolding_all decide) (by with_unfolding_all decide)

/-- C5: whenever Compacter._merge runs on two adjacent mergeable blocks and
either block's sample count differs from int(1.5 + span * rate) computed
from its declared span and rate, some error is raised, for every
combination of the flags. -/
theorem claim_c5 (cfg : Cfg) (g : ℕ → ℤ) (data : List Block) (i : ℕ)
    (hm : mergeable (sigOf (data.getD i dfltBlock)) (sigOf (data.getD (i - 1) dfltBlock)))
    (hbad :
      dataSize ((sigOf (data.getD (i - 1) dfltBlock)).endT -
          (sigOf (data.getD (i - 1) dfltBlock)).start)
          (sigOf (data.getD (i - 1) dfltBlock)).rate ≠
        ((data.getD (i - 1) dfltBlock).data.length : ℤ) ∨
      dataSize ((sigOf (data.getD i dfltBlock)).endT -
          (sigOf (data.getD i dfltBlock)).start)
          (sigOf (data.getD i dfltBlock)).rate ≠
        ((data.getD i dfltBlock).data.length : ℤ)) :
    ∃ e, merge cfg g data i = Except.error e := by
  rcases hM : merge cfg g data i with e | out
  · exact ⟨e, rfl⟩
  · obtain ⟨buf2, -, hszU, hszL, -, -, -⟩ := merge_ok_inv hM
    rcases hbad with hb | hb
    · exact absurd hszU hb
    · exact absurd hszL hb

theorem claim_c5_witness : ∃ e, merge cfgPlain gZero [blkA, blkBadSize] 1 = Except.error e :=
  claim_c5 cfgPlain gZero [blkA, blkBadSize] 1 (by with_unfolding_all decide)
    (Or.inr (by with_unfolding_all decide))

/-- C4, behaviour of the code at the failing input: with allow_mixed_types
set, two adjacent mergeable duplicates of different dtypes ARE merged: the
pair is replaced by one block and the removal happens, contradicting the
command help text ("such data will not be de-duplicated"). -/
theorem claim_c4_eval :
    merge { listOnly := false, allowMutation := false, allowMixedTypes := true } gZero
        [blkA, blkF] 1 = Except.ok [blkF] ∧
    compactFile { listOnly := false, allowMutation := false, allowMixedTypes := true } gZero
        5 [blkA, blkF] =
      some (Except.ok { blocks := [blkF], mutated := true, dup := false,
                        swaps := 0, merges := 1, wrote := true }) := by
  with_unfolding_all decide

/-- C6, counterexample to the run-level claim: with two files both holding
duplicates in list mode, the duplicates failure is raised by process at the
end of EACH file (twice in total, the first before the second file is
touched), not exactly once at the end of the run. -/
theorem claim_c6_cex :
    runAll cfgList gZero 5 [[blkA, blkConf], [blkA, blkConf]] =
      some [ProcResult.dupRaised, ProcResult.dupRaised] ∧
    processFile cfgList gZero 5 [blkA, blkConf] = some ProcResult.dupRaised ∧
    ¬ List.count ProcResult.dupRaised [ProcResult.dupRaised, ProcResult.dupRaised] = 1 := by
  with_unfolding_all decide

/-- C6 as amended: with the spec-modelled driver that continues past
per-file failures, every file of the run is processed (one outcome per
file), and the duplicates failure is raised exactly at those files whose
compaction found duplicates, at the end of each such file's processing. -/
theorem claim_c6 (cfg : Cfg) (g : ℕ → ℤ) (fuel : ℕ) (files : List (List Block))
    (rs : List ProcResult) (hrun : runAll cfg g fuel files = some rs) :
    rs.length = files.length ∧
    ∀ k, k < files.length →
      (rs.getD k ProcResult.ok = ProcResult.dupRaised ↔
        ∃ o, compactFile cfg g fuel (files.getD k []) = some (Except.ok o) ∧
          o.dup = true) := by
  induction files generalizing rs with
  | nil =>
    simp only [runAll, List.mapM_nil, Option.pure_def, Option.some.injEq] at hrun
    subst hrun
    exact ⟨rfl, by intro k hk; exact absurd hk (by simp)⟩
  | cons f fs ih =>
    rw [runAll, List.mapM_cons] at hrun
    cases hp : processFile cfg g fuel f with
    | none => rw [hp] at hrun; exact absurd hrun (by simp)
    | some r =>
      rw [hp] at hrun
      cases hrest : List.mapM (processFile cfg g fuel) fs with
      | none => rw [hrest] at hrun; exact absurd hrun (by simp)
      | some rs' =>
        rw [hrest] at hrun
        simp only [Option.pure_def, Option.bind_eq_bind, Option.some_bind,
          Option.some.injEq] at hrun
        subst hrun
        obtain ⟨hlen, hiff⟩ := ih rs' (by rw [runAll]; exact hrest)
        refine ⟨by simp [hlen], ?_⟩
        intro k hk
        cases k with
        | zero =>
          simp only [List.getD_cons_zero]
          unfold processFile at hp
          cases hc : compactFile cfg g fuel f with
          | none => rw [hc] at hp; exact absurd hp (by simp)
          | some res =>
            cases res with
            | error e =>
              rw [hc] at hp
              simp only [Option.some.injEq] at hp
              subst hp
              constructor
              · intro h
                exact absurd h (by simp)
              · rintro ⟨o, ho, -⟩
                exact absurd ho (by simp)
            | ok o =>
              rw [hc] at hp
              simp only [Option.some.injEq] at hp
              subst hp
              by_cases hdup : o.dup = true
              · rw [if_pos hdup]
                exact ⟨fun _ => ⟨o, rfl, hdup⟩, fun _ => rfl⟩
              · rw [if_neg hdup]
                constructor
                · intro h
                  exact absurd h (by simp)
                · rintro ⟨o', ho', hd⟩
                  simp only [Option.some.injEq, Except.ok.injEq] at ho'
                  subst ho'
                  exact absurd hd hdup
        | succ k =>
          simp only [List.getD_cons_succ]
          exact hiff k (by simpa using hk)

theorem claim_c6_witness :
    ([ProcResult.dupRaised, ProcResult.ok] : List ProcResult).length =
      [[blkA, blkConf], [blkA, blkB]].length :=
  (claim_c6 cfgList gZero 5 [[blkA, blkConf], [blkA, blkB]]
    [ProcResult.dupRaised, ProcResult.ok] (by with_unfolding_all decide)).1

/- ---------- numpy slice write characterisation ---------- -/

theorem npClampIdx_nonneg {n : ℕ} {x : ℤ} (h0 : 0 ≤ x) :
    npClampIdx n x = min x.toNat n := by
  unfold npClampIdx
  rw [if_neg (by omega)]

/-- A successful exact slice assignment with a nonnegative in-range start is
an in-bounds overwrite. -/
theorem npSliceAssign_ok_char {buf src out : List ℤ} {off len : ℤ}
    (hoff0 : 0 ≤ off) (hoffn : off < (buf.length : ℤ))
    (hlen : len = (src.length : ℤ))
    (hok : npSliceAssign buf off (off + len) src = Except.ok out) :
    off.toNat + src.length ≤ buf.length ∧
    out = buf.take off.toNat ++ src ++ buf.drop (off.toNat + src.length) := by
  unfold npSliceAssign at hok
  simp only [] at hok
  rw [npClampIdx_nonneg hoff0, npClampIdx_nonneg (by omega)] at hok
  have hlo : min off.toNat buf.length = off.toNat := by omega
  rw [hlo] at hok
  by_cases hin : (off + len).toNat ≤ buf.length
  · have hsl : min (off + len).toNat buf.length - off.toNat = src.length := by omega
    rw [hsl, if_pos rfl] at hok
    simp only [Except.ok.injEq] at hok
    exact ⟨by omega, hok.symm⟩
  · have hne : src.length ≠ min (off + len).toNat buf.length - off.toNat := by omega
    rw [if_neg hne] at hok
    have h1 : src.length ≠ 1 := by omega
    rw [if_neg h1] at hok
    exact absurd hok (fun hc => Except.noConfusion hc)

theorem write_length {base src : List ℤ} {a : ℕ} (ha : a + src.length ≤ base.length) :
    (base.take a ++ src ++ base.drop (a + src.length)).length = base.length := by
  simp only [List.length_append, List.length_take, List.length_drop]
  omega

theorem write_getD_inside {base src : List ℤ} {a k : ℕ}
    (ha : a + src.length ≤ base.length) (hk : k < src.length) :
    (base.take a ++ src ++ base.drop (a + src.length)).getD (a + k) 0 = src.getD k 0 := by
  rw [List.append_assoc]
  rw [List.getD_append_right _ _ _ _ (by rw [List.length_take]; omega)]
  rw [List.length_take]
  have harg : a + k - min a base.length = k := by omega
  rw [harg]
  rw [List.getD_append _ _ _ _ hk]

theorem write_getD_outside {base src : List ℤ} {a p : ℕ}
    (ha : a + src.length ≤ base.length) (hp : p < base.length)
    (hout : p < a ∨ a + src.length ≤ p) :
    (base.take a ++ src ++ base.drop (a + src.length)).getD p 0 = base.getD p 0 := by
  rcases hout with h | h
  · rw [List.append_assoc, List.getD_append _ _ _ _ (by rw [List.length_take]; omega)]
    rw [List.getD_eq_getElem _ _ (by rw [List.length_take]; omega),
      List.getD_eq_getElem _ _ hp]
    exact List.getElem_take base
  · rw [List.append_assoc, List.getD_append_right _ _ _ _ (by rw [List.length_take]; omega)]
    rw [List.length_take]
    rw [List.getD_append_right _ _ _ _ (by omega)]
    have harg : p - min a base.length - src.length = p - (a + src.length) := by omega
    rw [harg]
    rw [List.getD_eq_getElem _ _ (by rw [List.length_drop]; omega),
      List.getD_eq_getElem _ _ hp]
    rw [List.getElem_drop]
    congr 1
    omega

/-- The merged block always survives the final Python list.remove call (even
when it happens to equal the removed lower block, another copy remains). -/
theorem mem_setErase {data : List Block} {i : ℕ} (m : Block) (h0 : 0 < i)
    (hi : i < data.length) :
    m ∈ (data.set (i - 1) m).erase (data.getD i dfltBlock) := by
  have hdec := decompTwo h0 hi
  have hTlen := take_len_pred hi
  have hset : data.set (i - 1) m =
      data.take (i - 1) ++ m :: data.getD i dfltBlock :: data.drop (i + 1) := by
    conv_lhs => rw [hdec]
    rw [List.set_append_right _ _ (le_of_eq hTlen), hTlen, Nat.sub_self]
    rfl
  rw [hset]
  by_cases hT : data.getD i dfltBlock ∈ data.take (i - 1)
  · rw [List.erase_append_left _ hT]
    simp
  · rw [List.erase_append_right _ hT]
    by_cases hml : m = data.getD i dfltBlock
    · rw [hml, List.erase_cons_head]
      simp [hml]
    · rw [List.erase_cons_tail (by simpa using hml), List.erase_cons_head]
      simp

/- ---------- offset arithmetic ---------- -/

/-- Offset plus length stays inside the merged buffer when the block starts a
whole number of sample periods after the union start. -/
theorem locate_bounds_aligned {zero bs be endT r : ℚ} (hr : 0 ≤ r)
    (hzero : zero ≤ bs) (hspan : bs ≤ be) (hend : be ≤ endT)
    (hz : ∃ z : ℤ, (bs - zero) * r = (z : ℚ)) :
    0 ≤ offsetOf zero bs r ∧
    offsetOf zero bs r + dataSize (be - bs) r ≤ dataSize (endT - zero) r := by
  obtain ⟨z, hzq⟩ := hz
  have ha : (0 : ℚ) ≤ (bs - zero) * r := mul_nonneg (by linarith) hr
  have hb : (0 : ℚ) ≤ (be - bs) * r := mul_nonneg (by linarith) hr
  have hc : (0 : ℚ) ≤ (endT - zero) * r := mul_nonneg (by linarith) hr
  unfold offsetOf dataSize pyInt
  rw [if_pos (by linarith), if_pos (by linarith), if_pos (by linarith)]
  constructor
  · exact Int.le_floor.mpr (by push_cast; linarith)
  · have h1 : (⌊1 / 2 + (bs - zero) * r⌋ : ℤ) = z := by
      rw [hzq, add_comm, Int.floor_int_add]
      norm_num
    rw [h1]
    have h2 : z + ⌊3 / 2 + (be - bs) * r⌋ = ⌊3 / 2 + (be - bs) * r + (z : ℚ)⌋ := by
      rw [Int.floor_add_int]
      omega
    rw [h2, ← hzq]
    apply Int.floor_le_floor
    have hmono : (be - zero) * r ≤ (endT - zero) * r :=
      mul_le_mul_of_nonneg_right (by linarith) hr
    nlinarith [hmono]

/-- C10 counterexample: two mergeable blocks that both pass the size sanity
check, but whose sample grids are misaligned by half a period: the lower
block's offset plus length exceeds the merged sample count (and the model's
slice assignment correspondingly fails). -/
theorem claim_c10_cex :
    mergeable (sigOf ([blkA, blkHalf].getD 1 dfltBlock))
      (sigOf ([blkA, blkHalf].getD 0 dfltBlock)) ∧
    dataSize ((sigOf blkA).endT - (sigOf blkA).start) (sigOf blkA).rate =
      (blkA.data.length : ℤ) ∧
    dataSize ((sigOf blkHalf).endT - (sigOf blkHalf).start) (sigOf blkHalf).rate =
      (blkHalf.data.length : ℤ) ∧
    ¬ ((locate (min (sigOf blkHalf).start (sigOf blkA).start) (sigOf blkHalf)).1 +
        (locate (min (sigOf blkHalf).start (sigOf blkA).start) (sigOf blkHalf)).2 ≤
        dataSize (max (sigOf blkHalf).endT (sigOf blkA).endT -
          min (sigOf blkHalf).start (sigOf blkA).start) (sigOf blkHalf).rate) ∧
    merge cfgPlain gZero [blkA, blkHalf] 1 = Except.error MergeErr.broadcast := by
  with_unfolding_all decide

/-- C10 as amended: for adjacent mergeable blocks that pass the size sanity
checks, IF additionally both blocks are non-degenerate, the shared rate is
nonnegative, and each block starts a whole number of sample periods after
the union start (common sample grid), then both _locate results are within
the merged buffer: 0 ≤ offset and offset + length ≤ n_samples. -/
theorem claim_c10 (data : List Block) (i : ℕ)
    (hm : mergeable (sigOf (data.getD i dfltBlock)) (sigOf (data.getD (i - 1) dfltBlock)))
    (hr : 0 ≤ (sigOf (data.getD i dfltBlock)).rate)
    (huSpan : (sigOf (data.getD (i - 1) dfltBlock)).start ≤
      (sigOf (data.getD (i - 1) dfltBlock)).endT)
    (hlSpan : (sigOf (data.getD i dfltBlock)).start ≤ (sigOf (data.getD i dfltBlock)).endT)
    (hszU : dataSize ((sigOf (data.getD (i - 1) dfltBlock)).endT -
        (sigOf (data.getD (i - 1) dfltBlock)).start)
        (sigOf (data.getD (i - 1) dfltBlock)).rate =
      ((data.getD (i - 1) dfltBlock).data.length : ℤ))
    (hszL : dataSize ((sigOf (data.getD i dfltBlock)).endT -
        (sigOf (data.getD i dfltBlock)).start)
        (sigOf (data.getD i dfltBlock)).rate =
      ((data.getD i dfltBlock).data.length : ℤ))
    (haU : ∃ z : ℤ, ((sigOf (data.getD (i - 1) dfltBlock)).start -
        min (sigOf (data.getD i dfltBlock)).start
          (sigOf (data.getD (i - 1) dfltBlock)).start) *
        (sigOf (data.getD (i - 1) dfltBlock)).rate = (z : ℚ))
    (haL : ∃ z : ℤ, ((sigOf (data.getD i dfltBlock)).start -
        min (sigOf (data.getD i dfltBlock)).start
          (sigOf (data.getD (i - 1) dfltBlock)).start) *
        (sigOf (data.getD i dfltBlock)).rate = (z : ℚ)) :
    0 ≤ (locate (min (sigOf (data.getD i dfltBlock)).start
        (sigOf (data.getD (i - 1) dfltBlock)).start)
        (sigOf (data.getD (i - 1) dfltBlock))).1 ∧
    (locate (min (sigOf (data.getD i dfltBlock)).start
        (sigOf (data.getD (i - 1) dfltBlock)).start)
        (sigOf (data.getD (i - 1) dfltBlock))).1 +
      (locate (min (sigOf (data.getD i dfltBlock)).start
        (sigOf (data.getD (i - 1) dfltBlock)).start)
        (sigOf (data.getD (i - 1) dfltBlock))).2 ≤
      dataSize (max (sigOf (data.getD i dfltBlock)).endT
          (sigOf (data.getD (i - 1) dfltBlock)).endT -
        min (sigOf (data.getD i dfltBlock)).start
          (sigOf (data.getD (i - 1) dfltBlock)).start)
        (sigOf (data.getD i dfltBlock)).rate ∧
    0 ≤ (locate (min (sigOf (data.getD i dfltBlock)).start
        (sigOf (data.getD (i - 1) dfltBlock)).start)
        (sigOf (data.getD i dfltBlock))).1 ∧
    (locate (min (sigOf (data.getD i dfltBlock)).start
        (sigOf (data.getD (i - 1) dfltBlock)).start)
        (sigOf (data.getD i dfltBlock))).1 +
      (locate (min (sigOf (data.getD i dfltBlock)).start
        (sigOf (data.getD (i - 1) dfltBlock)).start)
        (sigOf (data.getD i dfltBlock))).2 ≤
      dataSize (max (sigOf (data.getD i dfltBlock)).endT
          (sigOf (data.getD (i - 1) dfltBlock)).endT -
        min (sigOf (data.getD i dfltBlock)).start
          (sigOf (data.getD (i - 1) dfltBlock)).start)
        (sigOf (data.getD i dfltBlock)).rate := by
  have hrate : (sigOf (data.getD i dfltBlock)).rate =
      (sigOf (data.getD (i - 1) dfltBlock)).rate :=
    snclqr_rate_eq (mergeable_iff.mp hm).1
  have hU := locate_bounds_aligned (hrate ▸ hr)
    (min_le_right _ _) huSpan
    (le_max_right (sigOf (data.getD i dfltBlock)).endT
      (sigOf (data.getD (i - 1) dfltBlock)).endT) haU
  have hL := locate_bounds_aligned hr (min_le_left _ _) hlSpan
    (le_max_left (sigOf (data.getD i dfltBlock)).endT
      (sigOf (data.getD (i - 1) dfltBlock)).endT) haL
  refine ⟨hU.1, ?_, hL.1, hL.2⟩
  unfold locate
  rw [hrate]
  exact hU.2

theorem claim_c10_witness :
    0 ≤ (locate (min (sigOf ([blkA, blkNext].getD 1 dfltBlock)).start
        (sigOf ([blkA, blkNext].getD 0 dfltBlock)).start)
        (sigOf ([blkA, blkNext].getD 1 dfltBlock))).1 := by
  exact (claim_c10 [blkA, blkNext] 1 (by with_unfolding_all decide)
    (by with_unfolding_all decide) (by with_unfolding_all decide)
    (by with_unfolding_all decide) (by with_unfolding_all decide)
    (by with_unfolding_all decide)
    ⟨0, by with_unfolding_all decide⟩ ⟨1, by with_unfolding_all decide⟩).2.2.1

theorem npEmpty_ok {n : ℤ} {g : ℕ → ℤ} {buf : List ℤ}
    (h : npEmpty n g = Except.ok buf) : 0 ≤ n ∧ buf.length = n.toNat := by
  unfold npEmpty at h
  split at h
  · exact absurd h (fun hc => Except.noConfusion hc)
  · simp only [Except.ok.injEq] at h
    constructor
    · omega
    · rw [← h]
      simp

/-- The offset of a non-degenerate block lies strictly inside the merged
sample count. -/
theorem offset_lt_size {zero bs be endT r : ℚ} (hr : 0 ≤ r) (hzero : zero ≤ bs)
    (hbe : bs ≤ be) (hend : be ≤ endT) :
    0 ≤ offsetOf zero bs r ∧ offsetOf zero bs r < dataSize (endT - zero) r := by
  unfold offsetOf dataSize pyInt
  have ha : (0 : ℚ) ≤ (bs - zero) * r := mul_nonneg (by linarith) hr
  have hc : (0 : ℚ) ≤ (endT - zero) * r := mul_nonneg (by linarith) hr
  rw [if_pos (by linarith), if_pos (by linarith)]
  refine ⟨Int.le_floor.mpr (by push_cast; linarith), ?_⟩
  have hmono : (bs - zero) * r ≤ (endT - zero) * r :=
    mul_le_mul_of_nonneg_right (by linarith) hr
  have h2 : (3 : ℚ) / 2 + (endT - zero) * r = (1 / 2 + (endT - zero) * r) + 1 := by ring
  rw [h2, Int.floor_add_one]
  have h3 := Int.floor_le_floor
    (show (1 : ℚ) / 2 + (bs - zero) * r ≤ 1 / 2 + (endT - zero) * r by linarith)
  omega

/-- Bounds on both _locate offsets under the hypotheses of a physically
sensible merge. -/
theorem merge_offset_bounds {data : List Block} {i : ℕ}
    (hm : mergeable (sigOf (data.getD i dfltBlock)) (sigOf (data.getD (i - 1) dfltBlock)))
    (hr : 0 ≤ (sigOf (data.getD i dfltBlock)).rate)
    (huSpan : (sigOf (data.getD (i - 1) dfltBlock)).start ≤
      (sigOf (data.getD (i - 1) dfltBlock)).endT)
    (hlSpan : (sigOf (data.getD i dfltBlock)).start ≤
      (sigOf (data.getD i dfltBlock)).endT) :
    0 ≤ (upperLoc data i).1 ∧ (upperLoc data i).1 < mergedCount data i ∧
    0 ≤ (lowerLoc data i).1 ∧ (lowerLoc data i).1 < mergedCount data i := by
  have hrate : (sigOf (data.getD i dfltBlock)).rate =
      (sigOf (data.getD (i - 1) dfltBlock)).rate :=
    snclqr_rate_eq (mergeable_iff.mp hm).1
  have hU := offset_lt_size (r := (sigOf (data.getD i dfltBlock)).rate) hr
    (min_le_right (sigOf (data.getD i dfltBlock)).start
      (sigOf (data.getD (i - 1) dfltBlock)).start) huSpan
    (le_max_right (sigOf (data.getD i dfltBlock)).endT
      (sigOf (data.getD (i - 1) dfltBlock)).endT)
  have hL := offset_lt_size (r := (sigOf (data.getD i dfltBlock)).rate) hr
    (min_le_left (sigOf (data.getD i dfltBlock)).start
      (sigOf (data.getD (i - 1) dfltBlock)).start) hlSpan
    (le_max_left (sigOf (data.getD i dfltBlock)).endT
      (sigOf (data.getD (i - 1) dfltBlock)).endT)
  refine ⟨?_, ?_, hL.1, hL.2⟩
  · show 0 ≤ offsetOf (unionStart data i) (sigOf (data.getD (i - 1) dfltBlock)).start
      (sigOf (data.getD (i - 1) dfltBlock)).rate
    rw [← hrate]
    exact hU.1
  · show offsetOf (unionStart data i) (sigOf (data.getD (i - 1) dfltBlock)).start
      (sigOf (data.getD (i - 1) dfltBlock)).rate < mergedCount data i
    rw [← hrate]
    exact hU.2

/-- Characterisation of a successful buffer build: both writes are exact and
in bounds, so the upper samples sit at their offset in the intermediate
buffer and the final buffer is the lower-write overlay. -/
theorem mergeBuf_ok_char {g : ℕ → ℤ} {data : List Block} {i : ℕ} {buf2 : List ℤ}
    (hm : mergeable (sigOf (data.getD i dfltBlock)) (sigOf (data.getD (i - 1) dfltBlock)))
    (hr : 0 ≤ (sigOf (data.getD i dfltBlock)).rate)
    (huSpan : (sigOf (data.getD (i - 1) dfltBlock)).start ≤
      (sigOf (data.getD (i - 1) dfltBlock)).endT)
    (hlSpan : (sigOf (data.getD i dfltBlock)).start ≤ (sigOf (data.getD i dfltBlock)).endT)
    (hszU : dataSize ((sigOf (data.getD (i - 1) dfltBlock)).endT -
        (sigOf (data.getD (i - 1) dfltBlock)).start)
        (sigOf (data.getD (i - 1) dfltBlock)).rate =
      ((data.getD (i - 1) dfltBlock).data.length : ℤ))
    (hszL : dataSize ((sigOf (data.getD i dfltBlock)).endT -
        (sigOf (data.getD i dfltBlock)).start)
        (sigOf (data.getD i dfltBlock)).rate =
      ((data.getD i dfltBlock).data.length : ℤ))
    (hbuf : mergeBuf g data i = Except.ok buf2) :
    ∃ buf1 : List ℤ,
      buf1.length = (mergedCount data i).toNat ∧
      (upperLoc data i).1.toNat + (data.getD (i - 1) dfltBlock).data.length ≤ buf1.length ∧
      (lowerLoc data i).1.toNat + (data.getD i dfltBlock).data.length ≤ buf1.length ∧
      (∀ k, k < (data.getD (i - 1) dfltBlock).data.length →
        buf1.getD ((upperLoc data i).1.toNat + k) 0 =
          (data.getD (i - 1) dfltBlock).data.getD k 0) ∧
      buf2 = buf1.take (lowerLoc data i).1.toNat ++ (data.getD i dfltBlock).data ++
        buf1.drop ((lowerLoc data i).1.toNat + (data.getD i dfltBlock).data.length) := by
  obtain ⟨hU0, hU1, hL0, hL1⟩ := merge_offset_bounds hm hr huSpan hlSpan
  unfold mergeBuf at hbuf
  split at hbuf
  · exact absurd hbuf (fun hc => Except.noConfusion hc)
  rename_i buf0 hE
  split at hbuf
  · exact absurd hbuf (fun hc => Except.noConfusion hc)
  rename_i buf1 hW1
  obtain ⟨hnn, hlen0⟩ := npEmpty_ok hE
  have hlenU : (upperLoc data i).2 = ((data.getD (i - 1) dfltBlock).data.length : ℤ) := hszU
  have hcharU := npSliceAssign_ok_char hU0
    (show (upperLoc data i).1 < (buf0.length : ℤ) by omega) hlenU hW1
  obtain ⟨hboundU, hbuf1⟩ := hcharU
  have hlen1 : buf1.length = buf0.length := by
    rw [hbuf1]
    exact write_length hboundU
  have hlenL : (lowerLoc data i).2 = ((data.getD i dfltBlock).data.length : ℤ) := hszL
  have hcharL := npSliceAssign_ok_char hL0
    (show (lowerLoc data i).1 < (buf1.length : ℤ) by omega) hlenL hbuf
  obtain ⟨hboundL, hbuf2⟩ := hcharL
  refine ⟨buf1, by omega, by omega, hboundL, ?_, hbuf2⟩
  intro k hk
  rw [hbuf1]
  exact write_getD_inside hboundU hk

/-- C2: for every successful merge of two adjacent mergeable (physically
sensible) blocks, the merged block's buffer holds the lower (later-ingested)
block's samples throughout the lower block's range — in particular on the
whole overlap — and holds the upper block's samples, unchanged, at every
offset of the upper block's range outside the lower block's range. -/
theorem claim_c2 (cfg : Cfg) (g : ℕ → ℤ) (data : List Block) (i : ℕ) (out : List Block)
    (h0 : 0 < i) (hi : i < data.length)
    (hm : mergeable (sigOf (data.getD i dfltBlock)) (sigOf (data.getD (i - 1) dfltBlock)))
    (hr : 0 ≤ (sigOf (data.getD i dfltBlock)).rate)
    (huSpan : (sigOf (data.getD (i - 1) dfltBlock)).start ≤
      (sigOf (data.getD (i - 1) dfltBlock)).endT)
    (hlSpan : (sigOf (data.getD i dfltBlock)).start ≤ (sigOf (data.getD i dfltBlock)).endT)
    (hok : merge cfg g data i = Except.ok out) :
    ∃ m, m ∈ out ∧
      npSlice m.data (lowerLoc data i).1 ((lowerLoc data i).1 + (lowerLoc data i).2) =
        (data.getD i dfltBlock).data ∧
      (∀ k : ℕ, (k : ℤ) < (upperLoc data i).2 →
        ((upperLoc data i).1 + (k : ℤ) < (lowerLoc data i).1 ∨
          (lowerLoc data i).1 + (lowerLoc data i).2 ≤ (upperLoc data i).1 + (k : ℤ)) →
        m.data.getD ((upperLoc data i).1 + (k : ℤ)).toNat 0 =
          (data.getD (i - 1) dfltBlock).data.getD k 0) := by
  obtain ⟨buf2, hbuf, hszU, hszL, -, -, hout⟩ := merge_ok_inv hok
  obtain ⟨hU0, hU1, hL0, hL1⟩ := merge_offset_bounds hm hr huSpan hlSpan
  obtain ⟨buf1, hlen1, hbU, hbL, hinsU, hbuf2⟩ :=
    mergeBuf_ok_char hm hr huSpan hlSpan hszU hszL hbuf
  have hU2 : (upperLoc data i).2 = ((data.getD (i - 1) dfltBlock).data.length : ℤ) := hszU
  have hL2 : (lowerLoc data i).2 = ((data.getD i dfltBlock).data.length : ℤ) := hszL
  have hblen2 : buf2.length = buf1.length := by
    rw [hbuf2]
    exact write_length hbL
  refine ⟨mergedBlock data i buf2, ?_, ?_, ?_⟩
  · rw [hout]
    exact mem_setErase _ h0 hi
  · show npSlice buf2 (lowerLoc data i).1 ((lowerLoc data i).1 + (lowerLoc data i).2) =
      (data.getD i dfltBlock).data
    unfold npSlice
    simp only []
    rw [npClampIdx_nonneg hL0, npClampIdx_nonneg (by omega)]
    have hlo : min (lowerLoc data i).1.toNat buf2.length = (lowerLoc data i).1.toNat := by
      omega
    have hhi : min ((lowerLoc data i).1 + (lowerLoc data i).2).toNat buf2.length =
        (lowerLoc data i).1.toNat + (data.getD i dfltBlock).data.length := by omega
    rw [hlo, hhi]
    have harg : (lowerLoc data i).1.toNat + (data.getD i dfltBlock).data.length -
        (lowerLoc data i).1.toNat = (data.getD i dfltBlock).data.length := by omega
    rw [harg, hbuf2, List.append_assoc]
    rw [List.drop_left' (by rw [List.length_take]; omega)]
    exact List.take_left' rfl
  · intro k hk hsides
    show buf2.getD ((upperLoc data i).1 + (k : ℤ)).toNat 0 =
      (data.getD (i - 1) dfltBlock).data.getD k 0
    have hkn : k < (data.getD (i - 1) dfltBlock).data.length := by omega
    have hp : ((upperLoc data i).1 + (k : ℤ)).toNat = (upperLoc data i).1.toNat + k := by
      omega
    rw [hp, hbuf2]
    rw [write_getD_outside hbL (by omega)
      (by rcases hsides with h | h
          · left; omega
          · right; omega)]
    exact hinsU k hkn

theorem claim_c2_witness :
    npSlice ({ blkA with data := [1, 2, 4], endT := 2 } : Block).data
      (lowerLoc [blkA, blkNext2] 1).1
      ((lowerLoc [blkA, blkNext2] 1).1 + (lowerLoc [blkA, blkNext2] 1).2) =
      blkNext2.data := by
  obtain ⟨m, hmem, hsl, -⟩ := claim_c2 cfgPlain gZero [blkA, blkNext2] 1
    [{ blkA with data := [1, 2, 4], endT := 2 }] one_pos (by decide)
    (by with_unfolding_all decide) (by with_unfolding_all decide)
    (by with_unfolding_all decide) (by with_unfolding_all decide)
    (by with_unfolding_all decide)
  rw [List.mem_singleton.mp hmem] at hsl
  exact hsl

/-- C3: when the merged buffer's span for the upper block no longer matches
the upper block's original samples and allow_mutation is unset, _merge
raises the data-mutation conflict; the loop propagates that error as the
file's outcome, and an errored compaction never invokes the file
replacement protocol, so the on-disk file stays unchanged. -/
theorem claim_c3 (cfg : Cfg) (g : ℕ → ℤ) (data : List Block) (i : ℕ) (buf2 : List ℤ)
    (hmut : cfg.allowMutation = false)
    (hdt : ¬ ((sigOf (data.getD i dfltBlock)).dtype ≠
      (sigOf (data.getD (i - 1) dfltBlock)).dtype ∧ cfg.allowMixedTypes = false))
    (hszU : dataSize ((sigOf (data.getD (i - 1) dfltBlock)).endT -
        (sigOf (data.getD (i - 1) dfltBlock)).start)
        (sigOf (data.getD (i - 1) dfltBlock)).rate =
      ((data.getD (i - 1) dfltBlock).data.length : ℤ))
    (hszL : dataSize ((sigOf (data.getD i dfltBlock)).endT -
        (sigOf (data.getD i dfltBlock)).start)
        (sigOf (data.getD i dfltBlock)).rate =
      ((data.getD i dfltBlock).data.length : ℤ))
    (hbuf : mergeBuf g data i = Except.ok buf2)
    (hdiff : npSlice buf2 (upperLoc data i).1
        ((upperLoc data i).1 + (upperLoc data i).2) ≠
      (data.getD (i - 1) dfltBlock).data) :
    merge cfg g data i = Except.error MergeErr.mutation ∧
    (cfg.listOnly = false →
      ∀ fuel mutated swaps merges, i < data.length →
        mergeable (sigOf (data.getD i dfltBlock)) (sigOf (data.getD (i - 1) dfltBlock)) →
        compactLoop cfg g (fuel + 1) data i mutated swaps merges =
          some (Except.error MergeErr.mutation)) ∧
    (∀ cfg' g' fuel blocks e,
      compactFile cfg' g' fuel blocks = some (Except.error e) →
      wroteOf (compactFile cfg' g' fuel blocks) = false) := by
  have h1 : merge cfg g data i = Except.error MergeErr.mutation := by
    unfold merge
    simp only []
    rw [if_neg hdt, if_neg (fun hc => hc hszU), if_neg (fun hc => hc hszL), hbuf]
    simp only []
    rw [if_pos ⟨hdiff, hmut⟩]
  refine ⟨h1, ?_, ?_⟩
  · intro hlist fuel mutated swaps merges hlen hmg
    rw [compactLoop, if_pos hlen]
    simp only []
    rw [if_pos hmg, hlist]
    simp only [Bool.false_eq_true, if_false]
    rw [h1]
  · intro cfg' g' fuel blocks e h
    exact wroteOf_of_error h

theorem claim_c3_witness :
    merge cfgPlain gZero [blkA, blkConf] 1 = Except.error MergeErr.mutation ∧
    compactLoop cfgPlain gZero 1 [blkA, blkConf] 1 false 0 0 =
      some (Except.error MergeErr.mutation) := by
  have H := claim_c3 cfgPlain gZero [blkA, blkConf] 1 [1, 99] rfl
    (by with_unfolding_all decide) (by with_unfolding_all decide)
    (by with_unfolding_all decide) (by with_unfolding_all decide)
    (by with_unfolding_all decide)
  exact ⟨H.1, H.2.1 rfl 0 false 0 0 (by decide) (by with_unfolding_all decide)⟩
